import Mathlib

/-!
Verification development for the VOM ACL `l2_list` reconciliation object
(`src/extras/vom/vom/acl_l2_list.cpp`).  The data model and every operation
below are shallow embeddings of the C++ source: pure value types for
`rc_t`, `handle_t`, `HW::item`, `l2_rule`, `l2_list`; the asynchronous
command queue is explicit state (a pending list and an executed list); the
singular store and the per-handle weak index are association lists over a
small heap of live instances, so that shared/weak reference semantics are
explicit.
-/

namespace VOM

/-- Result codes of HW commands (`rc_t` in the source).  Only the
distinctions exercised by `acl_l2_list.cpp` are kept: `OK` versus the
non-OK codes `UNSET`, `NOOP` and `TIMEOUT`. -/
inductive rc_t
| UNSET
| NOOP
| OK
| TIMEOUT
deriving DecidableEq, Repr

/-- `handle_t`: a device-assigned 32-bit identifier. -/
abbrev handle_t := Nat

/-- `handle_t::INVALID` is the all-ones 32-bit value. -/
def handle_t.INVALID : handle_t := 4294967295

namespace HW

/-- `HW::item<handle_t>`: the datum together with the result code of the
last command that wrote it. -/
structure item where
  data : handle_t
  rc : rc_t
deriving DecidableEq, Repr

/-- `HW::item::operator bool` returns whether the last result code is OK
(the item is configured in HW).  The class lives in `vom/hw.hpp`, outside
`src/`; modelled from the spec: a Handle "becomes valid only after a
successful create/update command execution" and "carries a result code
indicating whether the last provisioning attempt succeeded", so validity
of the item is exactly that its last result code is OK. -/
def item.isOK (i : item) : Prop := i.rc = rc_t.OK

instance (i : item) : Decidable i.isOK := by
  unfold item.isOK; infer_instance

end HW

namespace ACL

/-- `ACL::action_t`. -/
inductive action_t
| DENY
| PERMIT
| PERMITANDREFLECT
deriving DecidableEq, Repr

/-- `action_t::from_int`: 2 is permit-and-reflect, any other non-zero is
permit, zero is deny. -/
def action_t.from_int (i : Nat) : action_t :=
  if i = 2 then action_t.PERMITANDREFLECT
  else if i ≠ 0 then action_t.PERMIT
  else action_t.DENY

/-- `route::prefix_t` as used by the L2 rules: address family flag, the
address bytes (abstracted to a number) and the mask length. -/
structure route_pfx where
  is_ipv6 : Bool
  addr : Nat
  len : Nat
deriving DecidableEq, Repr

/-- `ACL::l2_rule`: priority (order index), action, source-IP match,
link-layer source address and its mask. -/
structure l2_rule where
  m_priority : Nat
  m_action : action_t
  m_src_ip : route_pfx
  m_mac : Nat
  m_mac_mask : Nat
deriving DecidableEq, Repr

/-- The desired rule set.  In the source this is a `std::multiset` whose
comparator keys on the rule priority while element equality is full value
equality (the comparator and `operator==` of `l2_rule` live in
`vom/acl_types.cpp`, outside `src/`; modelled from the spec: "Rules are
stored as a set keyed by order index; equality of two rule sets is by full
value equality").  A `Multiset` over the full rule value captures this:
insertion adds one occurrence, and erase-by-key removes every rule whose
priority equals the key rule's priority. -/
abbrev rules_t := Multiset l2_rule

/-- The ACL list object: handle item, key, desired rule set
(`ACL::l2_list`). -/
structure l2_list where
  m_hdl : HW.item
  m_key : String
  m_rules : rules_t
deriving DecidableEq

/-- The commands `acl_l2_list.cpp` enqueues (`vom/acl_list_cmds.hpp`).
A command is the serialized payload handed to the Command Queue. -/
inductive cmd
| l2_update_cmd (hdl : HW.item) (key : String) (rules : rules_t)
| l2_delete_cmd (hdl : HW.item)
| l2_dump_cmd
deriving DecidableEq

/-- The HW command queue: commands enqueued but not yet executed, and the
history of executed commands, in execution order. -/
structure HWQueue where
  pending : List cmd
  executed : List cmd
deriving DecidableEq

/-- `HW::enqueue`: append a command to the pending queue. -/
def HWQueue.enqueue (q : HWQueue) (c : cmd) : HWQueue :=
  { q with pending := q.pending ++ [c] }

/-- `HW::write`: the synchronous flush — executes every pending command in
enqueue order and returns once all are done. -/
def HWQueue.write (q : HWQueue) : HWQueue :=
  { pending := [], executed := q.executed ++ q.pending }

/-- `l2_list::insert`: `m_rules.insert(rule)` — add one occurrence of the
rule to the local desired set.  No device interaction. -/
def l2_list.insert (s : l2_list) (rule : l2_rule) : l2_list :=
  { s with m_rules := rule ::ₘ s.m_rules }

/-- `l2_list::remove`: `m_rules.erase(rule)` — `std::multiset::erase` by
key removes every element equivalent under the comparator, i.e. every rule
with the same priority.  No device interaction. -/
def l2_list.remove (s : l2_list) (rule : l2_rule) : l2_list :=
  { s with m_rules := s.m_rules.filter (fun x => x.m_priority ≠ rule.m_priority) }

/-- `l2_list::operator==`: compares the key and the rule set; the handle
does not participate. -/
def l2_list.equals (a b : l2_list) : Prop :=
  a.m_key = b.m_key ∧ a.m_rules = b.m_rules

instance (a b : l2_list) : Decidable (a.equals b) := by
  unfold l2_list.equals; infer_instance

/-- `l2_list::update(obj)`: if the last result code on the handle is not
OK, or the desired rules differ from the stored rules, enqueue one
`l2_update_cmd` carrying the handle item, the key and the rule set; always
overwrite the stored rules with `obj.m_rules` afterwards.

The `l2_update_cmd` class (`vom/acl_list_cmds.hpp`, outside `src/`) is
constructed with references to the object fields `m_hdl`, `m_key`,
`m_rules` (its `rpc_cmd` base keeps the HW item by reference so the result
code can be written back onto the object).  Modelled from the spec: the
enqueued push command "carries the full key and the full desired rule
set", and the queue executes serialized commands at flush time; since the
assignment `m_rules = obj.m_rules` runs before control can reach any
flush, the payload the command serializes is `obj.m_rules`.  The model
therefore enqueues the command with that effective payload. -/
def l2_list.update (s : l2_list) (obj : l2_list) (q : HWQueue) :
    l2_list × HWQueue :=
  ({ s with m_rules := obj.m_rules },
    if rc_t.OK ≠ s.m_hdl.rc ∨ obj.m_rules ≠ s.m_rules then
      q.enqueue (cmd.l2_update_cmd s.m_hdl s.m_key obj.m_rules)
    else q)

/-- `l2_list::sweep`: if the handle item is OK, enqueue an
`l2_delete_cmd` for it; then `HW::write()` — flush synchronously in every
case. -/
def l2_list.sweep (s : l2_list) (q : HWQueue) : HWQueue :=
  HWQueue.write
    (if s.m_hdl.isOK then q.enqueue (cmd.l2_delete_cmd s.m_hdl) else q)

/-- `l2_list::replay`: if the handle item is OK, reset its datum to
`handle_t::INVALID` (`m_hdl.data().reset()`), then enqueue one
`l2_update_cmd` with the (now reset) item, the key and the stored rule
set.  No flush. -/
def l2_list.replay (s : l2_list) (q : HWQueue) : l2_list × HWQueue :=
  if s.m_hdl.isOK then
    let s' := { s with m_hdl := { s.m_hdl with data := handle_t.INVALID } }
    (s', q.enqueue (cmd.l2_update_cmd s'.m_hdl s'.m_key s'.m_rules))
  else (s, q)

/-- Association-list lookup used by the store and index models. -/
def afind {α β : Type} [DecidableEq α] (k : α) : List (α × β) → Option β
  | [] => none
  | p :: ps => if p.1 = k then some p.2 else afind k ps

/-- The process-wide state around the `l2_list` statics: a heap of live
shared instances (identified by an allocation id), the singular db
`m_db` mapping keys to (weak) instance ids, and the per-handle db
`m_hdl_db` mapping handles to weak references (`std::weak_ptr`, where
`none` is the empty/expired-by-construction pointer).  A weak reference
resolves through the heap: if the id is no longer live, `lock()` yields
nothing.  `next` is the allocation counter for fresh ids. -/
structure world where
  heap : List (Nat × l2_list)
  m_db : List (String × Nat)
  m_hdl_db : List (handle_t × Option Nat)
  next : Nat
deriving DecidableEq

/-- `std::weak_ptr::lock` against the heap. -/
def world.lock (w : world) (wp : Option Nat) : Option l2_list :=
  wp.bind (fun i => afind i w.heap)

/-- `l2_list::find(const handle_t&)`:
`return (m_hdl_db[handle].lock());` — `std::map::operator[]` first
value-initializes an entry for an absent key, so a failed lookup inserts
an empty weak pointer for that handle; the result is the lock of the
(possibly fresh) entry.  Returns the result together with the updated
world. -/
def l2_list.find_hdl (w : world) (hdl : handle_t) :
    Option l2_list × world :=
  match afind hdl w.m_hdl_db with
  | some wp => (w.lock wp, w)
  | none => (none, { w with m_hdl_db := w.m_hdl_db ++ [(hdl, none)] })

/-- `l2_list::find(const key_t&)`: `m_db.find(key)` — resolve the key in
the singular db and lock the stored reference. -/
def l2_list.find_key (w : world) (key : String) : Option l2_list :=
  (afind key w.m_db).bind (fun i => afind i w.heap)

/-- `singular_db::release(key, instance)` composed with the run of the
destructor `~l2_list` on the last owning reference: `sweep()` runs first,
then the store entry is removed, but only if it still refers to the
instance being released (`singular_db` lives in `vom/singular_db.hpp`,
outside `src/`; modelled from the spec: release "removes the entry only
if the instance being released is still the one registered").  The heap
entry for the instance disappears — the object is destroyed — while
`m_hdl_db` is deliberately untouched: any weak reference to the instance
is left behind, expired. -/
def l2_list.release_last (w : world) (i : Nat) (q : HWQueue) :
    world × HWQueue :=
  match afind i w.heap with
  | none => (w, q)
  | some s =>
    let q' := s.sweep q
    ({ w with
        heap := w.heap.filter (fun p => p.1 ≠ i)
        m_db :=
          if afind s.m_key w.m_db = some i then
            w.m_db.filter (fun p => p.1 ≠ s.m_key)
          else w.m_db },
      q')

/-- `OM::commit(key, obj)` for a discovered object (`vom/om.hpp`, outside
`src/`); modelled from the spec: commit "is the entry point used during
populate to insert discovered ground-truth objects without going through
the user-facing update path", with device-originating writes suppressed —
the object is registered in the singular store as a fresh canonical
instance at its key, and no command is enqueued. -/
def OM_commit (w : world) (acl : l2_list) : world :=
  { heap := (w.next, acl) :: w.heap
    m_db := (acl.m_key, w.next) :: w.m_db.filter (fun p => p.1 ≠ acl.m_key)
    m_hdl_db := w.m_hdl_db
    next := w.next + 1 }

/-- One ACL rule record of the device dump reply
(`vl_api_macip_acl_rule_t`). -/
structure acl_rule_payload where
  is_permit : Nat
  is_ipv6 : Bool
  src_ip_addr : Nat
  src_ip_pfx_len : Nat
  src_mac : Nat
  src_mac_mask : Nat
deriving DecidableEq

/-- One record of the device dump reply: the ACL index (handle), the tag
(key) and the rule array (`count` is its length). -/
structure dump_record where
  acl_index : Nat
  tag : String
  r : List acl_rule_payload
deriving DecidableEq

/-- The rule reconstructed from entry `ii` of a dump record:
`l2_rule(ii, action_t::from_int(is_permit), pfx, mac, mac_mask)`. -/
def reconstruct_rule (ii : Nat) (p : acl_rule_payload) : l2_rule :=
  { m_priority := ii
    m_action := action_t.from_int p.is_permit
    m_src_ip := { is_ipv6 := p.is_ipv6, addr := p.src_ip_addr, len := p.src_ip_pfx_len }
    m_mac := p.src_mac
    m_mac_mask := p.src_mac_mask }

/-- The local object reconstructed from one dump record:
`l2_list acl(hdl, tag)` — handle item built from the dumped index, result
code unset — followed by `acl.insert(rule(ii, ...))` for each rule entry.
-/
def reconstruct_acl (rec : dump_record) : l2_list :=
  (rec.r.enum).foldl (fun acl p => acl.insert (reconstruct_rule p.1 p.2))
    { m_hdl := { data := rec.acl_index, rc := rc_t.UNSET }
      m_key := rec.tag
      m_rules := ∅ }

/-- `l2_list::event_handler::handle_populate`: enqueue one
`l2_dump_cmd`, flush (`HW::write`), then for each returned record
reconstruct the local object and `OM::commit` it — with the HW command
queue disabled, so the loop generates no commands. -/
def event_handler.handle_populate (records : List dump_record)
    (w : world) (q : HWQueue) : world × HWQueue :=
  let q1 := HWQueue.write (q.enqueue cmd.l2_dump_cmd)
  (records.foldl (fun w0 rec => OM_commit w0 (reconstruct_acl rec)) w, q1)

/-- Well-formedness of the world: every heap id and every id referenced
from the singular db is below the allocation counter, so fresh ids are
really fresh. -/
def world.wf (w : world) : Prop :=
  (∀ p ∈ w.heap, p.1 < w.next) ∧ (∀ p ∈ w.m_db, p.2 < w.next)

/-! ### Helper lemmas on association lists -/

theorem afind_mem {α β : Type} [DecidableEq α] {k : α} {v : β}
    {l : List (α × β)} (h : afind k l = some v) : (k, v) ∈ l := by
  induction l with
  | nil => simp [afind] at h
  | cons p ps ih =>
    rw [afind] at h
    by_cases hk : p.1 = k
    · rw [if_pos hk] at h
      injection h with h2
      have hp : p = (k, v) := by
        obtain ⟨p1, p2⟩ := p
        simp only at hk h2
        rw [hk, h2]
      rw [← hp]
      exact List.mem_cons_self _ _
    · rw [if_neg hk] at h
      exact List.mem_cons_of_mem _ (ih h)

theorem afind_filter_self {α β : Type} [DecidableEq α] (k : α)
    (l : List (α × β)) : afind k (l.filter (fun p => p.1 ≠ k)) = none := by
  induction l with
  | nil => rfl
  | cons p ps ih =>
    rw [List.filter_cons]
    by_cases hk : p.1 = k
    · rw [if_neg (by simp [hk])]
      exact ih
    · rw [if_pos (by simp [hk])]
      simp only [afind]
      rw [if_neg hk]
      exact ih

theorem afind_filter_ne {α β : Type} [DecidableEq α] {k k0 : α}
    (hne : k ≠ k0) (l : List (α × β)) :
    afind k (l.filter (fun p => p.1 ≠ k0)) = afind k l := by
  induction l with
  | nil => rfl
  | cons p ps ih =>
    rw [List.filter_cons]
    by_cases h0 : p.1 = k0
    · have hpk : ¬p.1 = k := by rw [h0]; exact fun h => hne h.symm
      rw [if_neg (by simp [h0])]
      rw [ih]
      have hstep : afind k (p :: ps) = afind k ps := by
        simp only [afind]
        rw [if_neg hpk]
      rw [hstep]
    · rw [if_pos (by simp [h0])]
      simp only [afind]
      rw [ih]

theorem afind_append_last {α β : Type} [DecidableEq α] {k : α}
    (l : List (α × β)) (v : β) (h : afind k l = none) :
    afind k (l ++ [(k, v)]) = some v := by
  induction l with
  | nil => simp [afind]
  | cons p ps ih =>
    rw [afind] at h
    by_cases hk : p.1 = k
    · rw [if_pos hk] at h
      cases h
    · rw [if_neg hk] at h
      rw [List.cons_append, afind, if_neg hk]
      exact ih h

theorem afind_append_last_ne {α β : Type} [DecidableEq α] {k k2 : α}
    (hne : k2 ≠ k) (l : List (α × β)) (v : β) :
    afind k2 (l ++ [(k, v)]) = afind k2 l := by
  induction l with
  | nil =>
    simp only [List.nil_append, afind]
    rw [if_neg (show ¬k = k2 from fun h => hne h.symm)]
  | cons p ps ih =>
    simp only [List.cons_append, afind, List.append_eq]
    rw [ih]

/-! ### Helper lemmas on the reconstruction fold and on commit -/

theorem fold_insert_key (l : List (Nat × acl_rule_payload)) (base : l2_list) :
    (l.foldl (fun a p => a.insert (reconstruct_rule p.1 p.2)) base).m_key
      = base.m_key := by
  induction l generalizing base with
  | nil => rfl
  | cons p ps ih => rw [List.foldl_cons, ih]; rfl

theorem fold_insert_hdl (l : List (Nat × acl_rule_payload)) (base : l2_list) :
    (l.foldl (fun a p => a.insert (reconstruct_rule p.1 p.2)) base).m_hdl
      = base.m_hdl := by
  induction l generalizing base with
  | nil => rfl
  | cons p ps ih => rw [List.foldl_cons, ih]; rfl

theorem fold_insert_rules (l : List (Nat × acl_rule_payload)) (base : l2_list) :
    (l.foldl (fun a p => a.insert (reconstruct_rule p.1 p.2)) base).m_rules
      = (l.map (fun p => reconstruct_rule p.1 p.2) : Multiset l2_rule)
          + base.m_rules := by
  induction l generalizing base with
  | nil => simp
  | cons p ps ih =>
    rw [List.foldl_cons, ih]
    simp only [l2_list.insert, List.map_cons]
    rw [← Multiset.cons_coe, Multiset.cons_add, Multiset.add_cons]

theorem reconstruct_acl_key (rec : dump_record) :
    (reconstruct_acl rec).m_key = rec.tag := by
  unfold reconstruct_acl
  rw [fold_insert_key]

theorem reconstruct_acl_hdl (rec : dump_record) :
    (reconstruct_acl rec).m_hdl
      = { data := rec.acl_index, rc := rc_t.UNSET } := by
  unfold reconstruct_acl
  rw [fold_insert_hdl]

theorem reconstruct_acl_rules (rec : dump_record) :
    (reconstruct_acl rec).m_rules
      = (rec.r.enum.map (fun p => reconstruct_rule p.1 p.2) :
          Multiset l2_rule) := by
  unfold reconstruct_acl
  rw [fold_insert_rules]
  simp

theorem OM_commit_wf {w : world} (acl : l2_list) (hwf : w.wf) :
    (OM_commit w acl).wf := by
  obtain ⟨h1, h2⟩ := hwf
  constructor
  · intro p hp
    rcases List.mem_cons.mp hp with h | h
    · rw [h]; exact Nat.lt_succ_self _
    · exact Nat.lt_succ_of_lt (h1 p h)
  · intro p hp
    rcases List.mem_cons.mp hp with h | h
    · rw [h]; exact Nat.lt_succ_self _
    · exact Nat.lt_succ_of_lt (h2 p (List.mem_of_mem_filter h))

theorem find_key_OM_commit_self (w : world) (acl : l2_list) :
    l2_list.find_key (OM_commit w acl) acl.m_key = some acl := by
  unfold l2_list.find_key OM_commit
  simp [afind]

theorem find_key_OM_commit_ne {w : world} {k : String} {o : l2_list}
    (acl : l2_list) (hne : k ≠ acl.m_key) (hwf : w.wf)
    (hfound : l2_list.find_key w k = some o) :
    l2_list.find_key (OM_commit w acl) k = some o := by
  unfold l2_list.find_key at hfound ⊢
  cases hdb : afind k w.m_db with
  | none => rw [hdb] at hfound; cases hfound
  | some j =>
    rw [hdb] at hfound
    simp only [Option.some_bind] at hfound
    have hj : j < w.next := hwf.2 (k, j) (afind_mem hdb)
    have hjne : ¬(w.next = j) := fun h => Nat.ne_of_lt hj h.symm
    have hkne : ¬(acl.m_key = k) := fun h => hne h.symm
    show (afind k ((acl.m_key, w.next)
            :: w.m_db.filter (fun p => p.1 ≠ acl.m_key))).bind
          (fun i => afind i ((w.next, acl) :: w.heap)) = some o
    simp only [afind]
    rw [if_neg hkne]
    rw [afind_filter_ne hne, hdb]
    rw [Option.some_bind, if_neg hjne]
    exact hfound

theorem fold_commit_preserves (rest : List dump_record) (w1 : world)
    (k : String) (o : l2_list) (hwf : w1.wf)
    (hk : k ∉ rest.map dump_record.tag)
    (hfound : l2_list.find_key w1 k = some o) :
    l2_list.find_key
        (rest.foldl (fun w0 r => OM_commit w0 (reconstruct_acl r)) w1) k
      = some o := by
  induction rest generalizing w1 with
  | nil => exact hfound
  | cons r rs ih =>
    rw [List.map_cons] at hk
    have hne : k ≠ r.tag := fun h => hk (by rw [h]; exact List.mem_cons_self _ _)
    have hk2 : k ∉ rs.map dump_record.tag := fun h => hk (List.mem_cons_of_mem _ h)
    rw [List.foldl_cons]
    refine ih (OM_commit w1 (reconstruct_acl r)) (OM_commit_wf _ hwf) hk2 ?_
    refine find_key_OM_commit_ne _ ?_ hwf hfound
    rw [reconstruct_acl_key]
    exact hne

theorem fold_commit_find (records : List dump_record) (w : world)
    (hwf : w.wf) (hnodup : (records.map dump_record.tag).Nodup) :
    ∀ rec ∈ records,
      l2_list.find_key
          (records.foldl (fun w0 r => OM_commit w0 (reconstruct_acl r)) w)
          rec.tag
        = some (reconstruct_acl rec) := by
  induction records generalizing w with
  | nil => intro rec h; cases h
  | cons r0 rs ih =>
    intro rec hmem
    rw [List.map_cons, List.nodup_cons] at hnodup
    rw [List.foldl_cons]
    rcases List.mem_cons.mp hmem with h | h
    · subst h
      refine fold_commit_preserves rs _ _ _ (OM_commit_wf _ hwf) hnodup.1 ?_
      have := find_key_OM_commit_self w (reconstruct_acl rec)
      rw [reconstruct_acl_key] at this
      exact this
    · exact ih (OM_commit w (reconstruct_acl r0)) (OM_commit_wf _ hwf)
        hnodup.2 rec h

/-! ### Concrete inputs used by the scenario conjuncts and witnesses -/

/-- A concrete rule A (priority 0). -/
def ruleA : l2_rule :=
  { m_priority := 0, m_action := action_t.PERMIT
    m_src_ip := { is_ipv6 := false, addr := 0, len := 0 }
    m_mac := 1, m_mac_mask := 2 }

/-- A concrete rule B (priority 1). -/
def ruleB : l2_rule :=
  { m_priority := 1, m_action := action_t.DENY
    m_src_ip := { is_ipv6 := false, addr := 5, len := 8 }
    m_mac := 3, m_mac_mask := 4 }

/-- A handle item provisioned OK with datum 5. -/
def itemOK5 : HW.item := { data := 5, rc := rc_t.OK }

/-- A stored object: OK handle, key acl-1, rules containing only A. -/
def storedA : l2_list :=
  { m_hdl := itemOK5, m_key := "acl-1", m_rules := {ruleA} }

/-- A desired object for the same key with rules A and B. -/
def desiredAB : l2_list :=
  { m_hdl := { data := handle_t.INVALID, rc := rc_t.UNSET }
    m_key := "acl-1", m_rules := {ruleA, ruleB} }

/-- A stored object whose last push failed (result code TIMEOUT). -/
def storedFailedA : l2_list :=
  { m_hdl := { data := 5, rc := rc_t.TIMEOUT }
    m_key := "acl-1", m_rules := {ruleA} }

/-- A desired object with the same rules as `storedFailedA`. -/
def desiredA : l2_list :=
  { m_hdl := { data := handle_t.INVALID, rc := rc_t.UNSET }
    m_key := "acl-1", m_rules := {ruleA} }

/-- The empty command queue. -/
def q0 : HWQueue := { pending := [], executed := [] }

/-! ### Claim theorems -/

/-- C1: every push command that `update(desired)` enqueues carries the
complete desired rule set — the result queue is either unchanged or
extended by exactly one `l2_update_cmd` whose payload is `obj.m_rules`;
in particular, for desired rules A,B replacing stored rules A (handle
OK), the enqueued push carries the two-rule set, which differs both from
the singleton B and from the previously stored singleton A. -/
theorem update_full_state_push (s obj : l2_list) (q : HWQueue) :
    ((s.update obj q).2 = q ∨
      (s.update obj q).2
        = q.enqueue (cmd.l2_update_cmd s.m_hdl s.m_key obj.m_rules)) ∧
    (l2_list.update storedA desiredAB q0).2.pending
        = [cmd.l2_update_cmd itemOK5 "acl-1" {ruleA, ruleB}] ∧
    ({ruleA, ruleB} : rules_t) ≠ {ruleB} ∧
    ({ruleA, ruleB} : rules_t) ≠ {ruleA} := by
  refine ⟨?_, by decide, by decide, by decide⟩
  by_cases hc : rc_t.OK ≠ s.m_hdl.rc ∨ obj.m_rules ≠ s.m_rules
  · right
    show (if rc_t.OK ≠ s.m_hdl.rc ∨ obj.m_rules ≠ s.m_rules then
        q.enqueue (cmd.l2_update_cmd s.m_hdl s.m_key obj.m_rules) else q)
      = q.enqueue (cmd.l2_update_cmd s.m_hdl s.m_key obj.m_rules)
    rw [if_pos hc]
  · left
    show (if rc_t.OK ≠ s.m_hdl.rc ∨ obj.m_rules ≠ s.m_rules then
        q.enqueue (cmd.l2_update_cmd s.m_hdl s.m_key obj.m_rules) else q)
      = q
    rw [if_neg hc]

/-- C2: when the handle result code is OK, updating twice with the same
desired set enqueues at most one push, and only on the first call: the
second call leaves the queue untouched; after either call the stored
rule set equals the desired one. -/
theorem update_idempotent (s d : l2_list) (q : HWQueue)
    (h : s.m_hdl.rc = rc_t.OK) :
    (((s.update d q).1.update d (s.update d q).2).2 = (s.update d q).2) ∧
    ((s.update d q).2 = q ∨
      (s.update d q).2
        = q.enqueue (cmd.l2_update_cmd s.m_hdl s.m_key d.m_rules)) ∧
    (s.update d q).1.m_rules = d.m_rules ∧
    ((s.update d q).1.update d (s.update d q).2).1.m_rules = d.m_rules := by
  refine ⟨?_, ?_, rfl, rfl⟩
  · show (if rc_t.OK ≠ s.m_hdl.rc ∨ d.m_rules ≠ d.m_rules then
        (s.update d q).2.enqueue
          (cmd.l2_update_cmd s.m_hdl s.m_key d.m_rules)
      else (s.update d q).2) = (s.update d q).2
    rw [if_neg (by rw [h]; simp)]
  · by_cases hc : rc_t.OK ≠ s.m_hdl.rc ∨ d.m_rules ≠ s.m_rules
    · right
      show (if rc_t.OK ≠ s.m_hdl.rc ∨ d.m_rules ≠ s.m_rules then
          q.enqueue (cmd.l2_update_cmd s.m_hdl s.m_key d.m_rules) else q)
        = q.enqueue (cmd.l2_update_cmd s.m_hdl s.m_key d.m_rules)
      rw [if_pos hc]
    · left
      show (if rc_t.OK ≠ s.m_hdl.rc ∨ d.m_rules ≠ s.m_rules then
          q.enqueue (cmd.l2_update_cmd s.m_hdl s.m_key d.m_rules) else q)
        = q
      rw [if_neg hc]

/-- C2 witness: the two-step scenario evaluated at stored rules A with
handle OK and desired rules A,B. -/
theorem update_idempotent_witness :
    ((l2_list.update (l2_list.update storedA desiredAB q0).1 desiredAB
        (l2_list.update storedA desiredAB q0).2).2
      = (l2_list.update storedA desiredAB q0).2) ∧
    (l2_list.update storedA desiredAB q0).1.m_rules = desiredAB.m_rules := by
  have h := update_idempotent storedA desiredAB q0 (by decide)
  exact ⟨h.1, h.2.2.1⟩

/-- C3: when the last result code on the handle is not OK, `update`
enqueues a push even though the desired rules equal the stored rules. -/
theorem update_retry_on_failed_rc (s d : l2_list) (q : HWQueue)
    (h : s.m_hdl.rc ≠ rc_t.OK) (_heq : d.m_rules = s.m_rules) :
    (s.update d q).2
        = q.enqueue (cmd.l2_update_cmd s.m_hdl s.m_key d.m_rules) ∧
    (s.update d q).1.m_rules = d.m_rules := by
  refine ⟨?_, rfl⟩
  show (if rc_t.OK ≠ s.m_hdl.rc ∨ d.m_rules ≠ s.m_rules then
      q.enqueue (cmd.l2_update_cmd s.m_hdl s.m_key d.m_rules) else q)
    = q.enqueue (cmd.l2_update_cmd s.m_hdl s.m_key d.m_rules)
  rw [if_pos (Or.inl (fun hh => h hh.symm))]

/-- C3 witness: a failed handle (TIMEOUT) with unchanged rules A still
gets a push enqueued. -/
theorem update_retry_on_failed_rc_witness :
    (l2_list.update storedFailedA desiredA q0).2
      = q0.enqueue (cmd.l2_update_cmd storedFailedA.m_hdl
          storedFailedA.m_key desiredA.m_rules) :=
  (update_retry_on_failed_rc storedFailedA desiredA q0 (by decide) rfl).1

/-- C8: `insert` and `remove` change only the local desired rule set;
the key and the handle are untouched, and their embeddings touch no
command queue. -/
theorem insert_remove_local_only (s : l2_list) (r : l2_rule) :
    (s.insert r).m_key = s.m_key ∧ (s.insert r).m_hdl = s.m_hdl ∧
    (s.insert r).m_rules = r ::ₘ s.m_rules ∧
    (s.remove r).m_key = s.m_key ∧ (s.remove r).m_hdl = s.m_hdl ∧
    (s.remove r).m_rules
      = s.m_rules.filter (fun x => x.m_priority ≠ r.m_priority) :=
  ⟨rfl, rfl, rfl, rfl, rfl, rfl⟩

/-- C9: `operator==` compares only key and rule set; two objects with
equal keys and equal rule sets are equal whatever their handles are. -/
theorem equals_ignores_handle (a b : l2_list)
    (hk : a.m_key = b.m_key) (hr : a.m_rules = b.m_rules) :
    a.equals b ∧
    ∀ i j : HW.item,
      l2_list.equals { a with m_hdl := i } { b with m_hdl := j } :=
  ⟨⟨hk, hr⟩, fun _ _ => ⟨hk, hr⟩⟩

/-- C9 witness: two objects with the same key and rules but different
handle items (datum and result code differ) compare equal. -/
theorem equals_ignores_handle_witness :
    l2_list.equals storedA
      { m_hdl := { data := 9, rc := rc_t.TIMEOUT }
        m_key := "acl-1", m_rules := {ruleA} } :=
  (equals_ignores_handle storedA
    { m_hdl := { data := 9, rc := rc_t.TIMEOUT }
      m_key := "acl-1", m_rules := {ruleA} } rfl rfl).1

/-- A world with the canonical instance `storedA` live at id 0, indexed
by key acl-1 and by handle 5. -/
def w1 : world :=
  { heap := [(0, storedA)], m_db := [("acl-1", 0)]
    m_hdl_db := [(5, some 0)], next := 1 }

/-- C4: running the destructor path on the last reference executes
`sweep` on the queue: if the handle item is OK exactly one delete
command for it is enqueued, and the queue is flushed before returning
(nothing left pending, everything executed in order); if the handle is
not OK no delete command is enqueued. -/
theorem sweep_delete_and_flush (w : world) (i : Nat) (s : l2_list)
    (q : HWQueue) (hlook : afind i w.heap = some s) :
    ((l2_list.release_last w i q).2 = s.sweep q) ∧
    (s.sweep q).pending = [] ∧
    (s.m_hdl.rc = rc_t.OK →
      (s.sweep q).executed
        = q.executed ++ q.pending ++ [cmd.l2_delete_cmd s.m_hdl]) ∧
    (s.m_hdl.rc ≠ rc_t.OK →
      (s.sweep q).executed = q.executed ++ q.pending) := by
  refine ⟨?_, rfl, ?_, ?_⟩
  · unfold l2_list.release_last
    rw [hlook]
  · intro h
    show (HWQueue.write
        (if s.m_hdl.isOK then q.enqueue (cmd.l2_delete_cmd s.m_hdl)
          else q)).executed
      = q.executed ++ q.pending ++ [cmd.l2_delete_cmd s.m_hdl]
    rw [if_pos (show s.m_hdl.isOK from h)]
    show q.executed ++ (q.pending ++ [cmd.l2_delete_cmd s.m_hdl])
      = q.executed ++ q.pending ++ [cmd.l2_delete_cmd s.m_hdl]
    rw [List.append_assoc]
  · intro h
    show (HWQueue.write
        (if s.m_hdl.isOK then q.enqueue (cmd.l2_delete_cmd s.m_hdl)
          else q)).executed
      = q.executed ++ q.pending
    rw [if_neg (show ¬s.m_hdl.isOK from h)]
    rfl

/-- C4 witness: destroying the object with OK handle 5 flushes exactly
its delete command. -/
theorem sweep_delete_and_flush_witness :
    ((l2_list.release_last w1 0 q0).2 = storedA.sweep q0) ∧
    (storedA.sweep q0).pending = [] ∧
    (storedA.sweep q0).executed = [cmd.l2_delete_cmd storedA.m_hdl] := by
  have h := sweep_delete_and_flush w1 0 storedA q0 (by decide)
  refine ⟨h.1, h.2.1, ?_⟩
  rw [h.2.2.1 rfl]
  rfl

/-- C5: on a handle whose item is OK, `replay` resets the handle datum
to INVALID, keeps the stored rule set and key, appends exactly one push
command carrying the full stored rule set, and does not flush (the
executed list is untouched); on a handle whose item is not OK it does
nothing at all. -/
theorem replay_resets_and_pushes (s : l2_list) (q : HWQueue) :
    (s.m_hdl.rc = rc_t.OK →
      (s.replay q).1.m_hdl.data = handle_t.INVALID ∧
      (s.replay q).1.m_rules = s.m_rules ∧
      (s.replay q).1.m_key = s.m_key ∧
      (s.replay q).2.pending
        = q.pending
            ++ [cmd.l2_update_cmd (s.replay q).1.m_hdl s.m_key s.m_rules] ∧
      (s.replay q).2.executed = q.executed) ∧
    (s.m_hdl.rc ≠ rc_t.OK → s.replay q = (s, q)) := by
  constructor
  · intro h
    have hrep : s.replay q
        = ({ s with m_hdl := { s.m_hdl with data := handle_t.INVALID } },
            q.enqueue (cmd.l2_update_cmd
              { s.m_hdl with data := handle_t.INVALID } s.m_key s.m_rules)) := by
      unfold l2_list.replay
      rw [if_pos (show s.m_hdl.isOK from h)]
    rw [hrep]
    exact ⟨rfl, rfl, rfl, rfl, rfl⟩
  · intro h
    unfold l2_list.replay
    rw [if_neg (show ¬s.m_hdl.isOK from h)]

/-- C5 witness: replay of the OK-handled object invalidates the handle,
keeps the rules, enqueues the push and executes nothing. -/
theorem replay_resets_and_pushes_witness :
    (l2_list.replay storedA q0).1.m_hdl.data = handle_t.INVALID ∧
    (l2_list.replay storedA q0).1.m_rules = storedA.m_rules ∧
    (l2_list.replay storedA q0).2.executed = q0.executed := by
  have h := (replay_resets_and_pushes storedA q0).1 rfl
  exact ⟨h.1, h.2.1, h.2.2.2.2⟩

/-- C6: once the last owning reference to instance `i` is released, a
Handle Index lookup through any mapping that pointed at `i` returns
absent; and in general `find(handle)` returns an object only when a
mapping exists and its backing instance is still live in the heap —
never a dangling result. -/
theorem hdl_find_no_stale (w : world) (i : Nat) (hdl : handle_t)
    (q : HWQueue) (hmap : afind hdl w.m_hdl_db = some (some i)) :
    (l2_list.find_hdl (l2_list.release_last w i q).1 hdl).1 = none ∧
    ∀ (w0 : world) (h0 : handle_t) (o : l2_list),
      (l2_list.find_hdl w0 h0).1 = some o →
      ∃ j, afind h0 w0.m_hdl_db = some (some j)
        ∧ afind j w0.heap = some o := by
  constructor
  · have hdb2 : (l2_list.release_last w i q).1.m_hdl_db = w.m_hdl_db := by
      unfold l2_list.release_last
      cases hheap : afind i w.heap with
      | none => rfl
      | some s => rfl
    have hhp : afind i (l2_list.release_last w i q).1.heap = none := by
      unfold l2_list.release_last
      cases hheap : afind i w.heap with
      | none => exact hheap
      | some s => exact afind_filter_self i w.heap
    unfold l2_list.find_hdl
    rw [hdb2, hmap]
    show ((l2_list.release_last w i q).1).lock (some i) = none
    unfold world.lock
    rw [Option.some_bind]
    exact hhp
  · intro w0 h0 o hfind
    unfold l2_list.find_hdl at hfind
    cases hdb : afind h0 w0.m_hdl_db with
    | none =>
      rw [hdb] at hfind
      exact absurd hfind (by simp)
    | some wp =>
      rw [hdb] at hfind
      cases wp with
      | none => exact absurd hfind (by simp [world.lock])
      | some j =>
        refine ⟨j, rfl, ?_⟩
        simpa [world.lock] using hfind

/-- C6 witness: after releasing the only reference to id 0, the lookup
by its former handle 5 yields nothing. -/
theorem hdl_find_no_stale_witness :
    (l2_list.find_hdl (l2_list.release_last w1 0 q0).1 5).1 = none :=
  (hdl_find_no_stale w1 0 5 q0 (by decide)).1

/-- C10: looking up a handle that is not mapped returns nothing but also
inserts an empty weak entry for that handle into the per-handle db
(`std::map::operator[]` value-initializes absent keys); the heap, the
singular db and every other handle entry are unchanged. -/
theorem find_hdl_missing_inserts (w : world) (hdl : handle_t)
    (h : afind hdl w.m_hdl_db = none) :
    (l2_list.find_hdl w hdl).1 = none ∧
    (l2_list.find_hdl w hdl).2.m_hdl_db = w.m_hdl_db ++ [(hdl, none)] ∧
    (l2_list.find_hdl w hdl).2.heap = w.heap ∧
    (l2_list.find_hdl w hdl).2.m_db = w.m_db ∧
    afind hdl (l2_list.find_hdl w hdl).2.m_hdl_db = some none ∧
    ∀ h2, h2 ≠ hdl →
      afind h2 (l2_list.find_hdl w hdl).2.m_hdl_db
        = afind h2 w.m_hdl_db := by
  have hres : l2_list.find_hdl w hdl
      = (none, { w with m_hdl_db := w.m_hdl_db ++ [(hdl, none)] }) := by
    unfold l2_list.find_hdl
    rw [h]
  rw [hres]
  refine ⟨rfl, rfl, rfl, rfl, ?_, ?_⟩
  · exact afind_append_last w.m_hdl_db none h
  · intro h2 hne
    exact afind_append_last_ne hne w.m_hdl_db none

/-- C10 witness: handle 7 is absent from the index of `w1`; the lookup
returns nothing and appends the empty entry for 7. -/
theorem find_hdl_missing_inserts_witness :
    (l2_list.find_hdl w1 7).1 = none ∧
    (l2_list.find_hdl w1 7).2.m_hdl_db = w1.m_hdl_db ++ [(7, none)] := by
  have h := find_hdl_missing_inserts w1 7 (by decide)
  exact ⟨h.1, h.2.1⟩

/-- C7: populate performs exactly one dump command followed by the
synchronous flush and generates no push; every dumped record is rebuilt
as a local object carrying the dumped handle, tag and reconstructed rule
set, and after the pass the singular store resolves each dumped tag to
exactly that object. -/
theorem handle_populate_ground_truth (records : List dump_record)
    (w : world) (q : HWQueue) (hwf : w.wf)
    (hnodup : (records.map dump_record.tag).Nodup) :
    ((event_handler.handle_populate records w q).2
        = HWQueue.write (q.enqueue cmd.l2_dump_cmd)) ∧
    ∀ rec ∈ records,
      l2_list.find_key (event_handler.handle_populate records w q).1
          rec.tag
        = some (reconstruct_acl rec) ∧
      (reconstruct_acl rec).m_hdl
        = { data := rec.acl_index, rc := rc_t.UNSET } ∧
      (reconstruct_acl rec).m_key = rec.tag ∧
      (reconstruct_acl rec).m_rules
        = (rec.r.enum.map (fun p => reconstruct_rule p.1 p.2) :
            Multiset l2_rule) := by
  refine ⟨rfl, ?_⟩
  intro rec hmem
  exact ⟨fold_commit_find records w hwf hnodup rec hmem,
    reconstruct_acl_hdl rec, reconstruct_acl_key rec,
    reconstruct_acl_rules rec⟩

/-- A concrete dumped rule payload. -/
def rp2 : acl_rule_payload :=
  { is_permit := 1, is_ipv6 := false, src_ip_addr := 7
    src_ip_pfx_len := 24, src_mac := 11, src_mac_mask := 12 }

/-- A concrete dump record: handle 2, tag acl-2, one rule. -/
def rec2 : dump_record := { acl_index := 2, tag := "acl-2", r := [rp2] }

/-- The empty world. -/
def w0 : world := { heap := [], m_db := [], m_hdl_db := [], next := 0 }

/-- C7 witness: populating the empty world with one record for acl-2
makes the store resolve acl-2 to the reconstructed object, and the only
command of the pass is the flushed dump. -/
theorem handle_populate_ground_truth_witness :
    l2_list.find_key (event_handler.handle_populate [rec2] w0 q0).1
        "acl-2"
      = some (reconstruct_acl rec2) ∧
    (event_handler.handle_populate [rec2] w0 q0).2
      = HWQueue.write (q0.enqueue cmd.l2_dump_cmd) := by
  have h := handle_populate_ground_truth [rec2] w0 q0
    ⟨fun p hp => absurd hp (List.not_mem_nil p),
      fun p hp => absurd hp (List.not_mem_nil p)⟩ (by decide)
  exact ⟨(h.2 rec2 (List.mem_singleton.mpr rfl)).1, h.1⟩

end ACL

end VOM
